import Mathlib

/-!
Verification development for a small static-site generator written in Rust
(src/ssg/src/main.rs).  The program mirrors a source tree into an output
tree, inlining fragment files referenced by single-line directives of the
form "<!-- template: NAME -->", and optionally re-runs generation under a
debounced file-watch loop.

The definitions below are a shallow embedding of the program:

* paths are plain strings; Rust PathBuf equality (used by the
  HashSet of processed files) is modelled by component-wise
  normalization (rustComponents), and OS-level path resolution (used by
  Path::exists and fs::read_to_string) by osResolve;
* BufRead::lines is modelled by rustLines (strips a trailing newline,
  and a carriage return before it, from every line);
* the unanchored regex search for "<!-- template: (.+?) -->" with a lazy
  capture is modelled by findDirective (leftmost start, shortest
  nonempty capture followed by the literal close marker);
* the recursive directory walk is modelled as a fold over the flattened
  enumeration order of the tree (a list of directory and file entries),
  with fallible file-system operations controlled by an explicit
  environment FsEnv; a directory-creation failure propagates as a fatal
  error (the Rust code uses the question-mark operator there), while
  copy and markup-processing failures are pushed onto the error list;
* the debounced watch loop is modelled by a step function on the
  recorded last-generation timestamp.
-/

namespace Ssg

/-! ## Path handling -/

/-- Splitting of a character list at every separator occurrence,
with the same segment semantics as String.splitOn for a one-character
separator (empty segments are kept). -/
def splitSepAux (sep : Char) : List Char → List Char → List String
  | [], acc => [String.mk acc.reverse]
  | c :: rest, acc =>
      if c = sep then String.mk acc.reverse :: splitSepAux sep rest []
      else splitSepAux sep rest (c :: acc)

/-- Segments of a path string between separator characters. -/
def splitSep (sep : Char) (s : String) : List String :=
  splitSepAux sep s.data []

/-- Components of a path as compared by Rust PathBuf equality: split on
the separator, drop empty segments, drop "." segments except in leading
position, keep ".." segments.  HashSet membership of processed files
uses this equality. -/
def rustComponents (s : String) : List String :=
  match splitSep '/' s with
  | [] => []
  | p :: rest =>
      (if p = "" then [] else [p]) ++
        rest.filter (fun q => !(q == "" || q == "."))

/-- Components of a path as resolved by the operating system for an
existence check or a read: "." segments vanish everywhere (paths are
relative to the working directory) and ".." pops the previous
component.  Intermediate directories are assumed to exist in the
modelled trees. -/
def osResolve (s : String) : List String :=
  (splitSep '/' s).foldl
    (fun acc q =>
      if q = "" || q = "." then acc
      else if q = ".." then acc.dropLast
      else acc ++ [q]) []

/-- Path of a source entry given its path relative to the source root,
mirroring entry.path() values produced by the recursive read_dir walk
rooted at "./src". -/
def srcPathOf (rel : String) : String := "./src/" ++ rel

/-- Path of the corresponding output entry, mirroring
dest.join(path.strip_prefix(src)) under the output root "./generated". -/
def destPathOf (rel : String) : String := "./generated/" ++ rel

/-- Parent directory of a path: everything before the final separator,
mirroring Path::parent on the clean walker-produced input paths. -/
def parentDir (s : String) : String :=
  String.mk (((s.data.reverse.dropWhile (fun c => c ≠ '/')).drop 1).reverse)

/-- Final component of a path (the file name). -/
def lastComponent (s : String) : List Char :=
  (s.data.reverse.takeWhile (fun c => c ≠ '/')).reverse

/-- Extension of a file name under the Rust Path::extension rules: the
part after the last dot, provided a nonempty stem comes before it. -/
def rustExtension (name : List Char) : Option (List Char) :=
  match name.reverse.dropWhile (fun c => c ≠ '.') with
  | [] => none
  | _ :: stemRev =>
      if stemRev.isEmpty then none
      else some (name.reverse.takeWhile (fun c => c ≠ '.')).reverse

/-- Test for the markup extension checked by the walker:
path.extension() == Some("html"). -/
def isHtml (rel : String) : Bool :=
  rustExtension (lastComponent rel) == some ['h', 't', 'm', 'l']

/-! ## Line splitting (BufRead::lines) -/

/-- Strip one trailing carriage return, mirroring the CRLF handling of
BufRead::lines on a newline-terminated line. -/
def stripCR (l : List Char) : List Char :=
  if l.getLast? = some '\r' then l.dropLast else l

/-- Accumulating splitter behind rustLines: lines terminated by a
newline have a trailing carriage return stripped; a final unterminated
line is yielded as-is; a trailing newline yields no extra empty line. -/
def rustLinesAux : List Char → List Char → List (List Char)
  | [], acc => if acc.isEmpty then [] else [acc.reverse]
  | c :: rest, acc =>
      if c = '\n' then stripCR acc.reverse :: rustLinesAux rest []
      else rustLinesAux rest (c :: acc)

/-- Lines of a file content as produced by BufRead::lines. -/
def rustLines (s : String) : List String :=
  (rustLinesAux s.data []).map String.mk

/-! ## Directive detection (the regex "<!-- template: (.+?) -->") -/

/-- Opening literal of the directive pattern. -/
def dirOpen : List Char := "<!-- template: ".data

/-- Closing literal of the directive pattern. -/
def dirClose : List Char := " -->".data

/-- Lazy capture scanner: extend the captured text one character at a
time until the closing literal follows, mirroring the reluctant
quantifier in the regex.  Fails at end of line. -/
def captureGo : List Char → List Char → Option (List Char)
  | _, [] => none
  | acc, c :: cs =>
      if dirClose.isPrefixOf (c :: cs) then some acc.reverse
      else captureGo (c :: acc) cs

/-- Shortest nonempty capture followed by the closing literal. -/
def captureUpTo : List Char → Option (List Char)
  | [] => none
  | c :: cs => captureGo [c] cs

/-- Unanchored leftmost-first search for the directive pattern in a
line, returning the captured fragment name, mirroring
Regex::captures on "<!-- template: (.+?) -->". -/
def findDirective : List Char → Option (List Char)
  | [] => none
  | c :: cs =>
      if dirOpen.isPrefixOf (c :: cs) then
        match captureUpTo ((c :: cs).drop dirOpen.length) with
        | some name => some name
        | none => findDirective cs
      else findDirective cs

/-! ## Data model -/

/-- One entry of the source tree in the flattened enumeration order of
the recursive walk.  Paths are relative to the source root. -/
inductive Entry where
  | dir (rel : String)
  | file (rel : String) (content : String)
deriving DecidableEq

/-- Relative path of an entry. -/
def Entry.relOf : Entry → String
  | .dir r => r
  | .file r _ => r

/-- Structured content of the diagnostic strings pushed onto the error
list: a copy failure, a markup-processing failure, or a missing
template (carrying fragment name, input path, 1-indexed line). -/
inductive Diag where
  | copyError (src : String) (dest : String)
  | processError (src : String)
  | templateNotFound (name : String) (file : String) (line : Nat)
deriving DecidableEq

/-- Environment of fallible file-system operations, keyed by the
relative path of the affected entry.  mkdirFails models
fs::create_dir_all on a nested destination directory, copyFails models
fs::copy, htmlFails models File::open / File::create at the start of
markup processing. -/
structure FsEnv where
  mkdirFails : String → Bool
  copyFails : String → Bool
  htmlFails : String → Bool

/-- Environment in which every file-system operation succeeds. -/
def envOk : FsEnv := ⟨fun _ => false, fun _ => false, fun _ => false⟩

/-- Result accumulator of processing one markup file: output text,
diagnostics, and the processed-set insertions made for consumed
fragments (as rustComponents keys). -/
structure HRes where
  out : String
  diags : List Diag
  procd : List (List String)
deriving DecidableEq

/-- Existence check for a candidate fragment path against the source
tree, mirroring Path::exists (true for files and directories alike,
compared after OS-level resolution). -/
def existsPath (tree : List Entry) (p : String) : Bool :=
  tree.any fun e => osResolve (srcPathOf e.relOf) == osResolve p

/-- Content lookup for a candidate fragment path, mirroring
fs::read_to_string; none when the path names a directory. -/
def readFragment (tree : List Entry) (p : String) : Option String :=
  tree.findSome? fun e =>
    match e with
    | .file rel c =>
        if osResolve (srcPathOf rel) == osResolve p then some c else none
    | .dir _ => none

/-! ## TemplateResolver (process_html_file) -/

/-- Processing of one line of a markup file.  A directive line whose
fragment exists emits the fragment content followed by a newline and
records the fragment as processed; a directive line whose fragment is
missing emits the original line and records a diagnostic; any other
line is emitted unchanged (with its newline re-appended).  The error
case models fs::read_to_string failing on an existing path that is a
directory; the partial accumulator is carried out because the Rust
mutable state persists past the failure. -/
def stepLine (tree : List Entry) (inputPath : String) (i : Nat)
    (line : String) (st : HRes) : Except HRes HRes :=
  match findDirective line.data with
  | some nameChars =>
      let name := String.mk nameChars
      let tp := parentDir inputPath ++ "/" ++ name
      if existsPath tree tp then
        match readFragment tree tp with
        | some frag =>
            .ok ⟨st.out ++ frag ++ "\n", st.diags,
              st.procd ++ [rustComponents tp]⟩
        | none => .error st
      else
        .ok ⟨st.out ++ line ++ "\n",
          st.diags ++ [.templateNotFound name inputPath (i + 1)], st.procd⟩
  | none => .ok ⟨st.out ++ line ++ "\n", st.diags, st.procd⟩

/-- Fold of stepLine over the enumerated lines of a markup file. -/
def processLines (tree : List Entry) (inputPath : String) :
    List String → Nat → HRes → Except HRes HRes
  | [], _, st => .ok st
  | l :: rest, i, st =>
      match stepLine tree inputPath i l st with
      | .ok st' => processLines tree inputPath rest (i + 1) st'
      | .error st' => .error st'

/-- Processing of one markup file given its content, mirroring
process_html_file after the input and output files opened
successfully. -/
def processHtmlFileOn (tree : List Entry) (inputPath : String)
    (content : String) : Except HRes HRes :=
  processLines tree inputPath (rustLines content) 0 ⟨"", [], []⟩

/-! ## TreeWalker (process_directory) -/

/-- State threaded through one generation run: output tree (destination
path to content, in write order), diagnostics, and the processed-file
set (rustComponents keys of source paths). -/
structure GState where
  output : List (String × String)
  errors : List Diag
  processed : List (List String)
deriving DecidableEq

/-- Initial state of a run: the error list and the processed-file set
are freshly created empty by generate_site. -/
def initState : GState := ⟨[], [], []⟩

/-- Processing of one enumerated entry.  A directory is created under
the destination (failure is fatal: the Rust code propagates it with the
question-mark operator).  A file already in the processed set is
skipped.  A markup file is delegated to the resolver; its failure is
recorded as a diagnostic and the walk continues.  Any other file is
copied; a copy failure is recorded as a diagnostic.  Every handled file
is inserted into the processed set afterwards. -/
def stepEntry (env : FsEnv) (tree : List Entry) (e : Entry) (s : GState) :
    Except Unit GState :=
  match e with
  | .dir rel =>
      if env.mkdirFails rel then .error () else .ok s
  | .file rel content =>
      if rustComponents (srcPathOf rel) ∈ s.processed then .ok s
      else
        if isHtml rel then
          if env.htmlFails rel then
            .ok ⟨s.output, s.errors ++ [.processError (srcPathOf rel)],
              s.processed ++ [rustComponents (srcPathOf rel)]⟩
          else
            match processHtmlFileOn tree (srcPathOf rel) content with
            | .ok h =>
                .ok ⟨s.output ++ [(destPathOf rel, h.out)],
                  s.errors ++ h.diags,
                  s.processed ++ h.procd ++ [rustComponents (srcPathOf rel)]⟩
            | .error h =>
                .ok ⟨s.output ++ [(destPathOf rel, h.out)],
                  s.errors ++ h.diags ++ [.processError (srcPathOf rel)],
                  s.processed ++ h.procd ++ [rustComponents (srcPathOf rel)]⟩
        else
          if env.copyFails rel then
            .ok ⟨s.output,
              s.errors ++ [.copyError (srcPathOf rel) (destPathOf rel)],
              s.processed ++ [rustComponents (srcPathOf rel)]⟩
          else
            .ok ⟨s.output ++ [(destPathOf rel, content)], s.errors,
              s.processed ++ [rustComponents (srcPathOf rel)]⟩

/-- Fold of stepEntry over the flattened enumeration order; a fatal
error short-circuits the whole walk. -/
def processEntries (env : FsEnv) (tree : List Entry) :
    List Entry → GState → Except Unit GState
  | [], s => .ok s
  | e :: rest, s =>
      match stepEntry env tree e s with
      | .ok s' => processEntries env tree rest s'
      | .error u => .error u

/-- One full generation run (generate_site): fresh empty error list and
processed set, then the walk over the source tree. -/
def generateSite (env : FsEnv) (tree : List Entry) : Except Unit GState :=
  processEntries env tree tree initState

/-- Content found in the output tree at a destination path (the first
write to that path, matching what a lookup of the produced file
returns when each path is written at most once). -/
def lookupOut (o : List (String × String)) (k : String) : Option String :=
  List.lookup k o

/-! ## ChangeWatcher (watch_and_generate) -/

/-- Debounce window of the watch loop, in milliseconds. -/
def debounceMs : Nat := 100

/-- State of the watch loop: the timestamp recorded after the last
completed generation (initialized at loop start). -/
structure WatchState where
  lastGeneration : Nat
deriving DecidableEq

/-- Handling of one received change event at time t: if the elapsed
time since the recorded timestamp exceeds the debounce window strictly,
run generation synchronously (taking genDur) and record the completion
time; otherwise drop the event, leaving the state unchanged.  Returns
whether a generation ran. -/
def watchStep (s : WatchState) (t : Nat) (genDur : Nat) :
    WatchState × Bool :=
  if debounceMs < t - s.lastGeneration then (⟨t + genDur⟩, true)
  else (s, false)

/-- Number of generations run for two consecutive events: the first
handled at time t1, the second received at time t2 but handled no
earlier than the completion of the handling of the first (the loop is
single-threaded and blocks on recv). -/
def watchTwo (s : WatchState) (t1 t2 d1 d2 : Nat) : Nat :=
  let r1 := watchStep s t1 d1
  let r2 := watchStep r1.1 (max t2 r1.1.lastGeneration) d2
  (if r1.2 then 1 else 0) + (if r2.2 then 1 else 0)

/-! ## Derived notions used by the theorems -/

/-- Content of the output tree of a full run at a destination path;
none when the run aborted fatally or the path was never written. -/
def runLookup (env : FsEnv) (tree : List Entry) (k : String) : Option String :=
  match generateSite env tree with
  | .ok s => lookupOut s.output k
  | .error _ => none

/-- Environment property: every modelled file-system operation
succeeds. -/
def envNoFail (env : FsEnv) : Prop :=
  ∀ r, env.mkdirFails r = false ∧ env.copyFails r = false ∧
    env.htmlFails r = false

/-- Concatenation of lines with a newline re-appended to each,
mirroring the writeln-based re-emission of the resolver. -/
def emitLines : List String → String
  | [] => ""
  | l :: rest => l ++ "\n" ++ emitLines rest

/-- Character-level counterpart of emitLines. -/
def joinNl (ls : List (List Char)) : List Char :=
  (ls.map (fun l => l ++ ['\n'])).flatten

/-- Processed-set keys contributed by the walker itself for the file
entries of a list, in visit order. -/
def procCompsOf (l : List Entry) : List (List String) :=
  l.filterMap fun e =>
    match e with
    | .file rel _ => some (rustComponents (srcPathOf rel))
    | .dir _ => none

/-- Relative paths of the file entries of a list. -/
def fileRels (l : List Entry) : List String :=
  l.filterMap fun e =>
    match e with
    | .file rel _ => some rel
    | .dir _ => none

/-- Output entry contributed by one enumerated entry when no
file-system operation fails and the entry is not skipped. -/
def entryOut (tree : List Entry) : Entry → Option (String × String)
  | .dir _ => none
  | .file rel c =>
      if isHtml rel then
        match processHtmlFileOn tree (srcPathOf rel) c with
        | .ok h => some (destPathOf rel, h.out)
        | .error h => some (destPathOf rel, h.out)
      else some (destPathOf rel, c)

/-- Test that a markup line does not resolve a fragment against the
tree: either it holds no directive, or the named candidate path does
not exist. -/
def lineUnresolved (tree : List Entry) (p : String) (line : String) : Bool :=
  match findDirective line.data with
  | none => true
  | some name => !existsPath tree (parentDir p ++ "/" ++ String.mk name)

/-- Test that an entry consumes no fragment: directories and non-markup
files trivially, markup files when every line is unresolved. -/
def fileUnresolved (tree : List Entry) : Entry → Bool
  | .dir _ => true
  | .file rel c =>
      !isHtml rel || (rustLines c).all (lineUnresolved tree (srcPathOf rel))

/-- Test that no directive anywhere in the tree resolves to an existing
entry (no fragment is consumed in the run). -/
def noResolve (tree : List Entry) : Bool :=
  tree.all (fileUnresolved tree)

/-! ## Theorems

General lemmas about the embedding come first, then one theorem per
claim (with its counterexample and witness where applicable). -/

theorem lookupOut_eq_none_iff (o : List (String × String)) (k : String) :
    lookupOut o k = none ↔ k ∉ o.map Prod.fst := by
  induction o with
  | nil => simp [lookupOut, List.lookup]
  | cons a o ih =>
      obtain ⟨a1, a2⟩ := a
      by_cases h : k = a1
      · subst h
        simp [lookupOut, List.lookup]
      · have hb : (k == a1) = false := by simpa using h
        simp only [lookupOut, List.lookup, hb, List.map_cons, List.mem_cons]
        rw [lookupOut] at ih
        rw [ih]
        constructor
        · intro hn hk
          rcases hk with hk | hk
          · exact h hk
          · exact hn hk
        · intro hn hk
          exact hn (Or.inr hk)

theorem lookupOut_append_self (o : List (String × String)) (k v : String)
    (h : lookupOut o k = none) : lookupOut (o ++ [(k, v)]) k = some v := by
  induction o with
  | nil => simp [lookupOut, List.lookup]
  | cons a o ih =>
      obtain ⟨a1, a2⟩ := a
      by_cases hk : k = a1
      · subst hk
        simp [lookupOut, List.lookup] at h
      · have hb : (k == a1) = false := by simpa using hk
        simp only [lookupOut, List.lookup, hb] at h ⊢
        exact ih h

theorem destPathOf_inj {a b : String} (h : destPathOf a = destPathOf b) :
    a = b := by
  unfold destPathOf at h
  have hd : ("./generated/" ++ a).data = ("./generated/" ++ b).data := by
    rw [h]
  simp only [String.data_append] at hd
  have hab := List.append_cancel_left hd
  cases a
  cases b
  exact congrArg String.mk hab

theorem processEntries_append_ok (env : FsEnv) (tree : List Entry)
    (l1 l2 : List Entry) (s s1 : GState)
    (h : processEntries env tree l1 s = .ok s1) :
    processEntries env tree (l1 ++ l2) s = processEntries env tree l2 s1 := by
  induction l1 generalizing s with
  | nil =>
      cases h
      rfl
  | cons e l1 ih =>
      cases hs : stepEntry env tree e s with
      | ok s' =>
          have hl : processEntries env tree (e :: l1) s =
              processEntries env tree l1 s' := by
            simp [processEntries, hs]
          rw [hl] at h
          have hg : processEntries env tree ((e :: l1) ++ l2) s =
              processEntries env tree (l1 ++ l2) s' := by
            simp [processEntries, hs]
          rw [hg]
          exact ih s' h
      | error u =>
          have hl : processEntries env tree (e :: l1) s = .error u := by
            simp [processEntries, hs]
          rw [hl] at h
          cases h

theorem stepEntry_skip (env : FsEnv) (tree : List Entry) (rel c : String)
    (s : GState) (h : rustComponents (srcPathOf rel) ∈ s.processed) :
    stepEntry env tree (.file rel c) s = .ok s := by
  simp [stepEntry, h]

theorem stepEntry_output_keys (env : FsEnv) (tree : List Entry) (e : Entry)
    (s s' : GState) (h : stepEntry env tree e s = .ok s') :
    s'.output = s.output ∨
      ∃ v, s'.output = s.output ++ [(destPathOf e.relOf, v)] := by
  cases e with
  | dir rel =>
      by_cases hm : env.mkdirFails rel = true
      · simp [stepEntry, hm] at h
      · simp [stepEntry, hm] at h
        rw [← h]
        exact Or.inl rfl
  | file rel c =>
      by_cases hp : rustComponents (srcPathOf rel) ∈ s.processed
      · simp [stepEntry, hp] at h
        rw [← h]
        exact Or.inl rfl
      · by_cases hh : isHtml rel = true
        · by_cases hf : env.htmlFails rel = true
          · simp [stepEntry, hp, hh, hf] at h
            rw [← h]
            exact Or.inl rfl
          · cases hres : processHtmlFileOn tree (srcPathOf rel) c with
            | ok hr =>
                simp [stepEntry, hp, hh, hf, hres] at h
                rw [← h]
                exact Or.inr ⟨hr.out, rfl⟩
            | error hr =>
                simp [stepEntry, hp, hh, hf, hres] at h
                rw [← h]
                exact Or.inr ⟨hr.out, rfl⟩
        · by_cases hf : env.copyFails rel = true
          · simp [stepEntry, hp, hh, hf] at h
            rw [← h]
            exact Or.inl rfl
          · simp [stepEntry, hp, hh, hf] at h
            rw [← h]
            exact Or.inr ⟨c, rfl⟩

theorem processEntries_output_keys (env : FsEnv) (tree : List Entry)
    (l : List Entry) (s s' : GState)
    (h : processEntries env tree l s = .ok s') :
    ∀ k, k ∈ s'.output.map Prod.fst →
      k ∈ s.output.map Prod.fst ∨ ∃ e ∈ l, k = destPathOf e.relOf := by
  induction l generalizing s with
  | nil =>
      cases h
      intro k hk
      exact Or.inl hk
  | cons e l ih =>
      intro k hk
      unfold processEntries at h
      cases hs : stepEntry env tree e s with
      | error u => rw [hs] at h; cases h
      | ok s1 =>
          rw [hs] at h
          rcases ih s1 h k hk with h1 | ⟨e', he', hke⟩
          · rcases stepEntry_output_keys env tree e s s1 hs with ho | ⟨v, ho⟩
            · rw [ho] at h1
              exact Or.inl h1
            · rw [ho] at h1
              simp only [List.map_append, List.mem_append] at h1
              rcases h1 with h1 | h1
              · exact Or.inl h1
              · simp only [List.map_cons, List.map_nil, List.mem_singleton] at h1
                exact Or.inr ⟨e, List.mem_cons_self e l, h1⟩
          · exact Or.inr ⟨e', List.mem_cons_of_mem e he', hke⟩

/-- C1 counterexample: in the two-file tree of the specification
example, enumerating the fragment before the file that references it
produces an independent output entry for the fragment, refuting the
claim that exclusion holds regardless of sibling enumeration order. -/
theorem fragment_emitted_when_enumerated_first :
    runLookup envOk
        [.file "b.html" "<p>hi</p>",
         .file "a.html" "<!-- template: b.html -->\n"]
        "./generated/b.html" = some "<p>hi</p>\n" := by
  rfl

/-- C1 (amended): a fragment referenced by a directive is excluded from
independent emission provided the walker reaches the fragment only
after some referencing markup file inserted its path into the processed
set; no other entry shares its relative path. -/
theorem fragment_excluded_after_reference (env : FsEnv)
    (tree l1 l2 : List Entry) (r c : String) (s sF : GState)
    (h1 : processEntries env tree l1 initState = .ok s)
    (hmem : rustComponents (srcPathOf r) ∈ s.processed)
    (hno1 : ∀ e ∈ l1, e.relOf ≠ r) (hno2 : ∀ e ∈ l2, e.relOf ≠ r)
    (hrun : processEntries env tree (l1 ++ .file r c :: l2) initState =
      .ok sF) :
    lookupOut sF.output (destPathOf r) = none := by
  rw [processEntries_append_ok env tree l1 (.file r c :: l2) initState s h1]
    at hrun
  rw [show processEntries env tree (Entry.file r c :: l2) s =
      processEntries env tree l2 s by
    simp [processEntries, stepEntry_skip env tree r c s hmem]] at hrun
  rw [lookupOut_eq_none_iff]
  intro hk
  rcases processEntries_output_keys env tree l2 s sF hrun _ hk with h1' | h2'
  · rcases processEntries_output_keys env tree l1 initState s h1 _ h1' with
      h0 | ⟨e, he, hke⟩
    · simp [initState] at h0
    · exact hno1 e he (destPathOf_inj hke).symm
  · rcases h2' with ⟨e, he, hke⟩
    exact hno2 e he (destPathOf_inj hke).symm

/-- C1 witness: concrete instance of the amended exclusion theorem on
the specification example tree, referencing file first. -/
theorem fragment_excluded_after_reference_witness :
    lookupOut
      (GState.mk [("./generated/a.html", "<p>hi</p>\n")] []
        [[".", "src", "b.html"], [".", "src", "a.html"]]).output
      (destPathOf "b.html") = none :=
  fragment_excluded_after_reference envOk
    [.file "a.html" "<!-- template: b.html -->\n", .file "b.html" "<p>hi</p>"]
    [.file "a.html" "<!-- template: b.html -->\n"] [] "b.html" "<p>hi</p>"
    (GState.mk [("./generated/a.html", "<p>hi</p>\n")] []
      [[".", "src", "b.html"], [".", "src", "a.html"]])
    (GState.mk [("./generated/a.html", "<p>hi</p>\n")] []
      [[".", "src", "b.html"], [".", "src", "a.html"]])
    rfl (by decide) (by decide) (by decide) rfl

/-- C2: running generation twice against the same source tree in the
same enumeration order yields identical results, the error list and the
processed-file set being freshly initialized inside generateSite. -/
theorem rerun_byte_identical (env : FsEnv) (tree : List Entry)
    (s1 s2 : GState) (h1 : generateSite env tree = .ok s1)
    (h2 : generateSite env tree = .ok s2) : s1 = s2 := by
  rw [h1] at h2
  exact Except.ok.inj h2

/-- C2 witness: two runs on a concrete one-file tree produce the same
state. -/
theorem rerun_byte_identical_witness :
    (GState.mk [("./generated/a.html", "x\n")] [] [[".", "src", "a.html"]]) =
      (GState.mk [("./generated/a.html", "x\n")] [] [[".", "src", "a.html"]]) :=
  rerun_byte_identical envOk [.file "a.html" "x\n"] _ _ rfl rfl

/-- C3 counterexample: on the specification example tree the generated
file content is the fragment content followed by an appended newline
(writeln), not exactly the fragment bytes. -/
theorem fragment_inline_appends_newline_cex :
    runLookup envOk
        [.file "a.html" "<!-- template: b.html -->\n",
         .file "b.html" "<p>hi</p>"]
        "./generated/a.html" = some "<p>hi</p>\n" ∧
      ("<p>hi</p>\n" : String) ≠ "<p>hi</p>" := by
  constructor
  · rfl
  · decide

/-- C3 (amended): a directive line whose fragment exists is replaced by
the fragment content written verbatim as a single block followed by one
appended newline; no directive line remains and the fragment content is
not scanned for directives (it is emitted unchanged whatever it
contains); on the specification example the output content is the
fragment content plus a newline. -/
theorem fragment_inline_amended :
    (∀ (tree : List Entry) (p : String) (i : Nat) (line : String)
        (st : HRes) (name : List Char) (frag : String),
        findDirective line.data = some name →
        existsPath tree (parentDir p ++ "/" ++ String.mk name) = true →
        readFragment tree (parentDir p ++ "/" ++ String.mk name) = some frag →
        stepLine tree p i line st =
          .ok ⟨st.out ++ frag ++ "\n", st.diags,
            st.procd ++
              [rustComponents (parentDir p ++ "/" ++ String.mk name)]⟩) ∧
    generateSite envOk
        [.file "a.html" "<!-- template: b.html -->\n",
         .file "b.html" "<p>hi</p>"] =
      .ok ⟨[("./generated/a.html", "<p>hi</p>\n")], [],
        [[".", "src", "b.html"], [".", "src", "a.html"]]⟩ := by
  constructor
  · intro tree p i line st name frag hf he hr
    simp [stepLine, hf, he, hr]
  · rfl

/-- C3 witness: concrete instance of the inline equation, with a
fragment that itself contains a directive line and is still emitted
unexpanded. -/
theorem fragment_inline_amended_witness :
    stepLine [.file "b.html" "<!-- template: c.html -->"] "./src/a.html" 0
        "<!-- template: b.html -->" ⟨"", [], []⟩ =
      .ok ⟨"<!-- template: c.html -->" ++ "\n", [],
        [rustComponents ("./src" ++ "/" ++ String.mk "b.html".data)]⟩ := by
  have h := fragment_inline_amended.1 [.file "b.html" "<!-- template: c.html -->"]
    "./src/a.html" 0 "<!-- template: b.html -->" ⟨"", [], []⟩
    "b.html".data "<!-- template: c.html -->" rfl rfl rfl
  simpa using h

/-- C6: a directive line whose candidate path does not exist
contributes exactly one diagnostic carrying the fragment name, the
input path and the 1-indexed line number, and emits the original line
unchanged; on the concrete one-file tree of the specification the run
yields exactly that diagnostic and preserves the line in the output. -/
theorem missing_fragment_diagnostic :
    (∀ (tree : List Entry) (p : String) (i : Nat) (line : String)
        (st : HRes) (name : List Char),
        findDirective line.data = some name →
        existsPath tree (parentDir p ++ "/" ++ String.mk name) = false →
        stepLine tree p i line st =
          .ok ⟨st.out ++ line ++ "\n",
            st.diags ++ [.templateNotFound (String.mk name) p (i + 1)],
            st.procd⟩) ∧
    generateSite envOk [.file "a.html" "<!-- template: missing.html -->\n"] =
      .ok ⟨[("./generated/a.html", "<!-- template: missing.html -->\n")],
        [.templateNotFound "missing.html" "./src/a.html" 1],
        [[".", "src", "a.html"]]⟩ := by
  constructor
  · intro tree p i line st name hf he
    simp [stepLine, hf, he]
  · rfl

/-- C6 witness: concrete instance of the missing-fragment equation. -/
theorem missing_fragment_diagnostic_witness :
    stepLine [] "./src/a.html" 0 "<!-- template: missing.html -->"
        ⟨"", [], []⟩ =
      .ok ⟨"" ++ "<!-- template: missing.html -->" ++ "\n",
        [] ++ [.templateNotFound (String.mk "missing.html".data)
          "./src/a.html" 1], []⟩ :=
  missing_fragment_diagnostic.1 [] "./src/a.html" 0
    "<!-- template: missing.html -->" ⟨"", [], []⟩ "missing.html".data
    rfl rfl

/-- C7 counterexample: a directory-creation failure on a nested path is
not recorded as a diagnostic with processing continuing; it aborts the
entire run fatally, so no state and no output at all is produced (the
markup file after the directory is never processed). -/
theorem mkdir_failure_fatal_cex :
    generateSite ⟨fun r => r == "sub", fun _ => false, fun _ => false⟩
      [.dir "sub", .file "sub/c.html" "x\n"] = .error () := by
  rfl

/-- C7 (amended): a copy failure and a markup processing failure are
recorded as diagnostics and the walk continues (the step returns
normally, leaving the output tree untouched for that file), every
non-failing unprocessed file still receives an output entry, and the
walk proceeds entry by entry past recovered steps; a directory-creation
failure, by contrast, is fatal. -/
theorem recoverable_errors_amended :
    (∀ (env : FsEnv) (tree : List Entry) (s : GState) (rel content : String),
        isHtml rel = true → env.htmlFails rel = true →
        rustComponents (srcPathOf rel) ∉ s.processed →
        stepEntry env tree (.file rel content) s =
          .ok ⟨s.output, s.errors ++ [.processError (srcPathOf rel)],
            s.processed ++ [rustComponents (srcPathOf rel)]⟩) ∧
    (∀ (env : FsEnv) (tree : List Entry) (s : GState) (rel content : String),
        isHtml rel = false → env.copyFails rel = true →
        rustComponents (srcPathOf rel) ∉ s.processed →
        stepEntry env tree (.file rel content) s =
          .ok ⟨s.output,
            s.errors ++ [.copyError (srcPathOf rel) (destPathOf rel)],
            s.processed ++ [rustComponents (srcPathOf rel)]⟩) ∧
    (∀ (env : FsEnv) (tree : List Entry) (s : GState) (rel content : String),
        (if isHtml rel then env.htmlFails rel else env.copyFails rel) =
          false →
        rustComponents (srcPathOf rel) ∉ s.processed →
        lookupOut s.output (destPathOf rel) = none →
        ∃ s' v, stepEntry env tree (.file rel content) s = .ok s' ∧
          lookupOut s'.output (destPathOf rel) = some v) ∧
    (∀ (env : FsEnv) (tree : List Entry) (s : GState) (rel : String),
        env.mkdirFails rel = true →
        stepEntry env tree (.dir rel) s = .error ()) ∧
    (∀ (env : FsEnv) (tree : List Entry) (e : Entry) (rest : List Entry)
        (s s' : GState), stepEntry env tree e s = .ok s' →
        processEntries env tree (e :: rest) s =
          processEntries env tree rest s') := by
  refine ⟨?_, ?_, ?_, ?_, ?_⟩
  · intro env tree s rel content hh hf hp
    simp [stepEntry, hh, hf, hp]
  · intro env tree s rel content hh hf hp
    simp [stepEntry, hh, hf, hp]
  · intro env tree s rel content hf hp hl
    by_cases hh : isHtml rel = true
    · rw [if_pos hh] at hf
      cases hres : processHtmlFileOn tree (srcPathOf rel) content with
      | ok hr =>
          have hstep : stepEntry env tree (.file rel content) s =
              .ok ⟨s.output ++ [(destPathOf rel, hr.out)],
                s.errors ++ hr.diags,
                s.processed ++
                  (hr.procd ++ [rustComponents (srcPathOf rel)])⟩ := by
            simp [stepEntry, hh, hf, hp, hres]
          exact ⟨_, hr.out, hstep,
            lookupOut_append_self s.output (destPathOf rel) hr.out hl⟩
      | error hr =>
          have hstep : stepEntry env tree (.file rel content) s =
              .ok ⟨s.output ++ [(destPathOf rel, hr.out)],
                s.errors ++ (hr.diags ++ [.processError (srcPathOf rel)]),
                s.processed ++
                  (hr.procd ++ [rustComponents (srcPathOf rel)])⟩ := by
            simp [stepEntry, hh, hf, hp, hres]
          exact ⟨_, hr.out, hstep,
            lookupOut_append_self s.output (destPathOf rel) hr.out hl⟩
    · rw [if_neg hh] at hf
      have hstep : stepEntry env tree (.file rel content) s =
          .ok ⟨s.output ++ [(destPathOf rel, content)], s.errors,
            s.processed ++ [rustComponents (srcPathOf rel)]⟩ := by
        simp [stepEntry, hh, hf, hp]
      exact ⟨_, content, hstep,
        lookupOut_append_self s.output (destPathOf rel) content hl⟩
  · intro env tree s rel hm
    simp [stepEntry, hm]
  · intro env tree e rest s s' hs
    simp [processEntries, hs]

/-- C7 witness: concrete instances of the recovery clauses: a failing
copy records a diagnostic and returns normally, and the sibling
processed next still receives its output entry. -/
theorem recoverable_errors_amended_witness :
    stepEntry ⟨fun _ => false, fun r => r == "a.txt", fun _ => false⟩ []
        (.file "a.txt" "x") initState =
      .ok ⟨[], [.copyError (srcPathOf "a.txt") (destPathOf "a.txt")],
        [rustComponents (srcPathOf "a.txt")]⟩ ∧
    (∃ s' v, stepEntry ⟨fun _ => false, fun r => r == "a.txt", fun _ => false⟩
        [] (.file "b.txt" "y")
        ⟨[], [.copyError (srcPathOf "a.txt") (destPathOf "a.txt")],
          [rustComponents (srcPathOf "a.txt")]⟩ = .ok s' ∧
      lookupOut s'.output (destPathOf "b.txt") = some v) := by
  constructor
  · have h := recoverable_errors_amended.2.1
      ⟨fun _ => false, fun r => r == "a.txt", fun _ => false⟩ []
      initState "a.txt" "x" (by decide) (by decide) (by decide)
    simpa [initState] using h
  · exact recoverable_errors_amended.2.2.1
      ⟨fun _ => false, fun r => r == "a.txt", fun _ => false⟩ []
      ⟨[], [.copyError (srcPathOf "a.txt") (destPathOf "a.txt")],
        [rustComponents (srcPathOf "a.txt")]⟩ "b.txt" "y"
      (by decide) (by decide) (by decide)

/-- C8 counterexample: an event whose elapsed time since the recorded
timestamp is exactly the debounce window is dropped by the strict
comparison in the watch loop, though the claim requires a run whenever
elapsed is greater than or equal to the window. -/
theorem debounce_boundary_cex :
    debounceMs ≤ 100 - (WatchState.mk 0).lastGeneration ∧
      watchStep ⟨0⟩ 100 7 = (⟨0⟩, false) := by
  constructor
  · decide
  · rfl

/-- C8 (amended): an event runs generation exactly when the elapsed
time since the recorded timestamp strictly exceeds the debounce window,
in which case the run completes synchronously and the completion time
is recorded; an event with elapsed less than or equal to the window is
dropped with no state change (never merged into a later run); two
events less than the window apart trigger at most one regeneration. -/
theorem debounce_amended :
    (∀ (s : WatchState) (t d : Nat), debounceMs < t - s.lastGeneration →
        watchStep s t d = (⟨t + d⟩, true)) ∧
    (∀ (s : WatchState) (t d : Nat), t - s.lastGeneration ≤ debounceMs →
        watchStep s t d = (s, false)) ∧
    (∀ (s : WatchState) (t1 t2 d1 d2 : Nat), t1 ≤ t2 →
        t2 - t1 < debounceMs → watchTwo s t1 t2 d1 d2 ≤ 1) := by
  refine ⟨?_, ?_, ?_⟩
  · intro s t d h
    simp [watchStep, h]
  · intro s t d h
    have hn : ¬ debounceMs < t - s.lastGeneration := by omega
    simp [watchStep, hn]
  · intro s t1 t2 d1 d2 h12 hw
    by_cases h1 : debounceMs < t1 - s.lastGeneration
    · have h2 : ¬ debounceMs <
          max t2 (t1 + d1) - (WatchState.mk (t1 + d1)).lastGeneration := by
        simp only [WatchState.mk]
        simp [debounceMs] at hw ⊢
        omega
      simp [watchTwo, watchStep, h1, h2]
    · by_cases h2 : debounceMs <
          max t2 s.lastGeneration - s.lastGeneration
      · simp [watchTwo, watchStep, h1, h2]
      · simp [watchTwo, watchStep, h1, h2]

/-- C8 witness: concrete instances: an event 101 ms after the recorded
timestamp runs and records completion; two events 49 ms apart yield at
most one run. -/
theorem debounce_amended_witness :
    watchStep ⟨0⟩ 101 7 = (⟨108⟩, true) ∧ watchTwo ⟨0⟩ 101 150 7 7 ≤ 1 :=
  ⟨debounce_amended.1 ⟨0⟩ 101 7 (by decide),
   debounce_amended.2.2 ⟨0⟩ 101 150 7 7 (by decide) (by decide)⟩

/-- C10 counterexample: a directive naming the fragment as "./b.html"
(a non-canonical spelling, not byte-equal to the enumerated "b.html")
still excludes the fragment from independent emission, because the
processed-file set compares PathBuf components, which normalize away
non-leading "." segments; the claim predicted independent emission for
that spelling. -/
theorem dot_spelling_excluded_cex :
    runLookup envOk
        [.file "a.html" "<!-- template: ./b.html -->\n",
         .file "b.html" "<p>hi</p>"]
        "./generated/b.html" = none ∧
      runLookup envOk
        [.file "a.html" "<!-- template: ./b.html -->\n",
         .file "b.html" "<p>hi</p>"]
        "./generated/a.html" = some "<p>hi</p>\n" := by
  constructor
  · rfl
  · rfl

theorem strMk_append (a b : List Char) :
    String.mk a ++ String.mk b = String.mk (a ++ b) := rfl

theorem str_empty_append (s : String) : "" ++ s = s := by
  cases s
  rfl

theorem str_append_empty (s : String) : s ++ "" = s := by
  cases s with
  | mk d => exact congrArg String.mk (List.append_nil d)

theorem str_append_assoc (a b c : String) : a ++ b ++ c = a ++ (b ++ c) := by
  cases a with
  | mk da =>
      cases b with
      | mk db =>
          cases c with
          | mk dc => exact congrArg String.mk (List.append_assoc da db dc)

theorem stripCR_no_cr (l : List Char) (h : '\r' ∉ l) : stripCR l = l := by
  unfold stripCR
  by_cases hg : l.getLast? = some '\r'
  · obtain ⟨hne, heq⟩ :=
      List.mem_getLast?_eq_getLast (l := l) (x := '\r')
        ((Option.mem_def).mpr hg)
    exact absurd (heq ▸ List.getLast_mem hne) h
  · rw [if_neg hg]

theorem rustLinesAux_nl (rest acc : List Char) :
    rustLinesAux ('\n' :: rest) acc =
      stripCR acc.reverse :: rustLinesAux rest [] := by
  simp [rustLinesAux]

theorem rustLinesAux_other (c : Char) (h : ¬ c = '\n') (rest acc : List Char) :
    rustLinesAux (c :: rest) acc = rustLinesAux rest (c :: acc) := by
  simp only [rustLinesAux]
  rw [if_neg h]

theorem joinNl_cons (x : List Char) (xs : List (List Char)) :
    joinNl (x :: xs) = (x ++ ['\n']) ++ joinNl xs := rfl

theorem rustLinesAux_joinNl (l : List Char) :
    ∀ acc : List Char, '\r' ∉ l → '\r' ∉ acc → l.getLast? = some '\n' →
      joinNl (rustLinesAux l acc) = acc.reverse ++ l := by
  induction l with
  | nil =>
      intro acc _ _ hg
      simp at hg
  | cons c rest ih =>
      intro acc hc hacc hg
      have hcr : '\r' ∉ rest := fun hm => hc (List.mem_cons_of_mem c hm)
      by_cases hn : c = '\n'
      · subst hn
        have hsc : stripCR acc.reverse = acc.reverse :=
          stripCR_no_cr acc.reverse (by simpa using hacc)
        rw [rustLinesAux_nl, joinNl_cons, hsc]
        cases rest with
        | nil => simp [rustLinesAux, joinNl]
        | cons d rest' =>
            have hg' : (d :: rest').getLast? = some '\n' := by
              rw [List.getLast?_cons_cons] at hg
              exact hg
            rw [ih [] hcr (by simp) hg']
            simp
      · have hrest : rest ≠ [] := by
          intro he
          subst he
          simp at hg
          exact hn hg
        have hg' : rest.getLast? = some '\n' := by
          obtain ⟨d, rest', rfl⟩ := List.exists_cons_of_ne_nil hrest
          rw [List.getLast?_cons_cons] at hg
          exact hg
        have hcacc : '\r' ∉ c :: acc := by
          intro hm
          rcases List.mem_cons.mp hm with hm | hm
          · exact hc (by simp [hm.symm])
          · exact hacc hm
        rw [rustLinesAux_other c hn, ih (c :: acc) hcr hcacc hg']
        simp

theorem emitLines_map_mk (ls : List (List Char)) :
    emitLines (ls.map String.mk) = String.mk (joinNl ls) := by
  induction ls with
  | nil => rfl
  | cons x rest ih =>
      simp only [List.map_cons, emitLines, ih, joinNl, List.flatten_cons]
      rw [show ("\n" : String) = String.mk ['\n'] from rfl, strMk_append,
        strMk_append]

theorem processLines_no_directive (tree : List Entry) (p : String) :
    ∀ (lines : List String) (i : Nat) (st : HRes),
      (∀ l ∈ lines, findDirective l.data = none) →
      processLines tree p lines i st =
        .ok ⟨st.out ++ emitLines lines, st.diags, st.procd⟩ := by
  intro lines
  induction lines with
  | nil =>
      intro i st _
      simp [processLines, emitLines, str_append_empty]
  | cons l rest ih =>
      intro i st hall
      have hl : findDirective l.data = none := hall l (List.mem_cons_self l rest)
      have hstep : stepLine tree p i l st =
          .ok ⟨st.out ++ l ++ "\n", st.diags, st.procd⟩ := by
        simp [stepLine, hl]
      simp only [processLines, hstep]
      rw [ih (i + 1) ⟨st.out ++ l ++ "\n", st.diags, st.procd⟩
        (fun x hx => hall x (List.mem_cons_of_mem l hx))]
      simp only [emitLines]
      simp [str_append_assoc]

/-- C4 counterexample: a markup file with no directive whose content
uses a CRLF line ending is not copied verbatim: the carriage return is
stripped and the line re-emitted with a bare newline, so the output
bytes differ from the input bytes. -/
theorem crlf_not_verbatim_cex :
    runLookup envOk [.file "a.html" "hi\r\n"] "./generated/a.html" =
      some "hi\n" ∧ ("hi\n" : String) ≠ "hi\r\n" := by
  constructor
  · rfl
  · decide

/-- C4 (amended): a markup file with zero directive lines is emitted as
its lines re-joined with a single newline after each; the output equals
the input exactly when the input contains no carriage return and ends
with a newline (and for the empty input), while CRLF endings are
normalized to bare newlines and a missing final newline is added. -/
theorem no_directive_output_amended :
    (∀ (tree : List Entry) (p content : String),
        ((rustLines content).all fun l => (findDirective l.data).isNone) =
          true →
        processHtmlFileOn tree p content =
          .ok ⟨emitLines (rustLines content), [], []⟩) ∧
    (∀ content : String, '\r' ∉ content.data →
        content.data.getLast? = some '\n' →
        emitLines (rustLines content) = content) ∧
    emitLines (rustLines "") = "" := by
  refine ⟨?_, ?_, rfl⟩
  · intro tree p content hall
    have hall' : ∀ l ∈ rustLines content, findDirective l.data = none := by
      intro l hl
      have := List.all_eq_true.mp hall l hl
      exact Option.isNone_iff_eq_none.mp this
    have := processLines_no_directive tree p (rustLines content) 0
      ⟨"", [], []⟩ hall'
    rw [processHtmlFileOn, this, str_empty_append]
  · intro content hcr hnl
    rw [rustLines, emitLines_map_mk,
      rustLinesAux_joinNl content.data [] hcr (by simp) hnl]
    cases content
    rfl

/-- C4 witness: a concrete two-line directive-free file is emitted
re-joined, and since it is carriage-return free and newline-terminated
the result equals the input. -/
theorem no_directive_output_amended_witness :
    processHtmlFileOn [] "./src/a.html" "x\ny\n" =
      .ok ⟨emitLines (rustLines "x\ny\n"), [], []⟩ ∧
    emitLines (rustLines "x\ny\n") = "x\ny\n" :=
  ⟨no_directive_output_amended.1 [] "./src/a.html" "x\ny\n" (by decide),
   no_directive_output_amended.2.1 "x\ny\n" (by decide) (by decide)⟩

theorem captureGo_sound (rest : List Char) :
    ∀ acc name, captureGo acc rest = some name →
      ∃ mid post, rest = mid ++ (dirClose ++ post) ∧
        name = acc.reverse ++ mid := by
  induction rest with
  | nil =>
      intro acc name h
      simp [captureGo] at h
  | cons c cs ih =>
      intro acc name h
      by_cases hp : dirClose.isPrefixOf (c :: cs) = true
      · rw [show captureGo acc (c :: cs) = some acc.reverse by
          simp [captureGo, hp]] at h
        obtain ⟨t, ht⟩ := List.isPrefixOf_iff_prefix.mp hp
        refine ⟨[], t, ?_, ?_⟩
        · simpa using ht.symm
        · simpa using (Option.some.inj h).symm
      · rw [show captureGo acc (c :: cs) = captureGo (c :: acc) cs by
          simp [captureGo, hp]] at h
        obtain ⟨mid, post, hcs, hname⟩ := ih (c :: acc) name h
        refine ⟨c :: mid, post, by simp [hcs], ?_⟩
        rw [hname]
        simp

theorem captureGo_of_close (acc rest : List Char) (hne : rest ≠ [])
    (hp : dirClose.isPrefixOf rest = true) :
    captureGo acc rest = some acc.reverse := by
  cases rest with
  | nil => exact absurd rfl hne
  | cons c cs => simp [captureGo, hp]

theorem captureGo_complete (x : List Char) :
    ∀ acc y : List Char,
      ∃ nm, captureGo acc (x ++ (dirClose ++ y)) = some nm := by
  induction x with
  | nil =>
      intro acc y
      refine ⟨acc.reverse, ?_⟩
      rw [List.nil_append]
      refine captureGo_of_close acc (dirClose ++ y) ?_ ?_
      · intro h
        exact absurd (List.append_eq_nil.mp h).1 (by decide)
      · exact List.isPrefixOf_iff_prefix.mpr ⟨y, rfl⟩
  | cons c x' ih =>
      intro acc y
      rw [List.cons_append]
      by_cases hp : dirClose.isPrefixOf
          (c :: (x' ++ (dirClose ++ y))) = true
      · exact ⟨acc.reverse, by simp [captureGo, hp]⟩
      · obtain ⟨nm, hnm⟩ := ih (c :: acc) y
        exact ⟨nm, by simp [captureGo, hp, hnm]⟩

theorem captureUpTo_sound (rest name : List Char)
    (h : captureUpTo rest = some name) :
    name ≠ [] ∧ ∃ post, rest = name ++ (dirClose ++ post) := by
  cases rest with
  | nil => simp [captureUpTo] at h
  | cons c cs =>
      rw [show captureUpTo (c :: cs) = captureGo [c] cs from rfl] at h
      obtain ⟨mid, post, hcs, hname⟩ := captureGo_sound cs [c] name h
      have hn : name = c :: mid := by simpa using hname
      refine ⟨by simp [hn], post, ?_⟩
      rw [hcs, hn]
      simp

theorem captureUpTo_complete (x y : List Char) (hx : x ≠ []) :
    ∃ nm, captureUpTo (x ++ (dirClose ++ y)) = some nm := by
  cases x with
  | nil => exact absurd rfl hx
  | cons c x' =>
      obtain ⟨nm, hnm⟩ := captureGo_complete x' [c] y
      exact ⟨nm, by simpa [captureUpTo] using hnm⟩

theorem findDirective_sound (l : List Char) :
    ∀ name, findDirective l = some name →
      ∃ pre post,
        l = pre ++ (dirOpen ++ (name ++ (dirClose ++ post))) ∧
          name ≠ [] := by
  induction l with
  | nil =>
      intro name h
      simp [findDirective] at h
  | cons c cs ih =>
      intro name h
      by_cases hp : dirOpen.isPrefixOf (c :: cs) = true
      · obtain ⟨t, ht⟩ := List.isPrefixOf_iff_prefix.mp hp
        cases hcap : captureUpTo ((c :: cs).drop dirOpen.length) with
        | some nm =>
            have hname : nm = name := by
              rw [show findDirective (c :: cs) = some nm by
                simp [findDirective, hp, hcap]] at h
              exact Option.some.inj h
            subst hname
            have hdrop : (c :: cs).drop dirOpen.length = t := by
              rw [← ht]
              exact List.drop_left dirOpen t
            rw [hdrop] at hcap
            obtain ⟨hne, post, hteq⟩ := captureUpTo_sound t nm hcap
            refine ⟨[], post, ?_, hne⟩
            rw [List.nil_append, ← ht, hteq]
        | none =>
            have h' : findDirective cs = some name := by
              rw [show findDirective (c :: cs) = findDirective cs by
                simp [findDirective, hp, hcap]] at h
              exact h
            obtain ⟨pre, post, hl, hne⟩ := ih name h'
            exact ⟨c :: pre, post, by simp [hl], hne⟩
      · have h' : findDirective cs = some name := by
          rw [show findDirective (c :: cs) = findDirective cs by
            simp [findDirective, hp]] at h
          exact h
        obtain ⟨pre, post, hl, hne⟩ := ih name h'
        exact ⟨c :: pre, post, by simp [hl], hne⟩

theorem findDirective_here (l : List Char)
    (hp : dirOpen.isPrefixOf l = true)
    (hcap : ∃ nm, captureUpTo (l.drop dirOpen.length) = some nm) :
    (findDirective l).isSome = true := by
  cases l with
  | nil => exact absurd hp (by decide)
  | cons c cs =>
      obtain ⟨nm, hnm⟩ := hcap
      simp [findDirective, hp, hnm]

theorem findDirective_complete (pre : List Char) :
    ∀ name post : List Char, name ≠ [] →
      (findDirective
        (pre ++ (dirOpen ++ (name ++ (dirClose ++ post))))).isSome =
        true := by
  induction pre with
  | nil =>
      intro name post hne
      rw [List.nil_append]
      apply findDirective_here
      · exact List.isPrefixOf_iff_prefix.mpr
          ⟨name ++ (dirClose ++ post), rfl⟩
      · rw [List.drop_left dirOpen _]
        exact captureUpTo_complete name post hne
  | cons c pre' ih =>
      intro name post hne
      rw [List.cons_append]
      by_cases hp : dirOpen.isPrefixOf
          (c :: (pre' ++ (dirOpen ++ (name ++ (dirClose ++ post))))) =
            true
      · cases hcap : captureUpTo
            ((c :: (pre' ++
              (dirOpen ++ (name ++ (dirClose ++ post))))).drop
                dirOpen.length) with
        | some nm => simp [findDirective, hp, hcap]
        | none => simp [findDirective, hp, hcap, ih name post hne]
      · simp [findDirective, hp, ih name post hne]

/-- C5 counterexample: a line whose entire content does not match the
directive pattern (extra text before and after the directive) still
triggers fragment substitution, because the regex search is unanchored;
the whole line, junk included, is replaced by the fragment content, so
the line is not written to the output unchanged as the claim
requires. -/
theorem directive_substring_triggers_cex :
    runLookup envOk
        [.file "a.html" "xx<!-- template: b.html -->yy\n",
         .file "b.html" "<p>hi</p>"]
        "./generated/a.html" = some "<p>hi</p>\n" := by
  rfl

/-- C5 (amended): a markup line triggers fragment substitution exactly
when it contains a substring matching the directive pattern (opening
literal, nonempty lazily-shortest capture, closing literal), anywhere
in the line; the captured name is resolved relative to the directory of
the input file, the entire line is replaced on substitution, and a line
containing no such substring is written to the output unchanged. -/
theorem directive_trigger_amended :
    (∀ l : List Char, (findDirective l).isSome = true ↔
        ∃ pre name post,
          l = pre ++ (dirOpen ++ (name ++ (dirClose ++ post))) ∧
            name ≠ []) ∧
    (∀ (tree : List Entry) (p : String) (i : Nat) (line : String)
        (st : HRes), findDirective line.data = none →
        stepLine tree p i line st =
          .ok ⟨st.out ++ line ++ "\n", st.diags, st.procd⟩) := by
  constructor
  · intro l
    constructor
    · intro h
      obtain ⟨name, hname⟩ := Option.isSome_iff_exists.mp h
      obtain ⟨pre, post, hl, hne⟩ := findDirective_sound l name hname
      exact ⟨pre, name, post, hl, hne⟩
    · rintro ⟨pre, name, post, rfl, hne⟩
      exact findDirective_complete pre name post hne
  · intro tree p i line st h
    simp [stepLine, h]

/-- C5 witness: the unanchored pattern is found inside a line with
surrounding junk, and a directive-free line passes through
unchanged. -/
theorem directive_trigger_amended_witness :
    (findDirective ("xx<!-- template: b.html -->yy".data)).isSome =
        true ∧
      stepLine [] "./src/a.html" 0 "hello" ⟨"", [], []⟩ =
        .ok ⟨"" ++ "hello" ++ "\n", [], []⟩ :=
  ⟨(directive_trigger_amended.1 _).mpr
      ⟨"xx".data, "b.html".data, "yy".data, by decide, by decide⟩,
   directive_trigger_amended.2 [] "./src/a.html" 0 "hello"
      ⟨"", [], []⟩ rfl⟩

theorem all_congr_mem {α : Type} (l : List α) (f g : α → Bool)
    (h : ∀ x ∈ l, f x = g x) : l.all f = l.all g := by
  induction l with
  | nil => rfl
  | cons a l ih =>
      simp only [List.all_cons]
      rw [h a (List.mem_cons_self a l),
        ih (fun x hx => h x (List.mem_cons_of_mem a hx))]

theorem filterMap_congr_mem {α β : Type} (l : List α) (f g : α → Option β)
    (h : ∀ x ∈ l, f x = g x) : l.filterMap f = l.filterMap g := by
  induction l with
  | nil => rfl
  | cons a l ih =>
      rw [List.filterMap_cons, List.filterMap_cons,
        h a (List.mem_cons_self a l),
        ih (fun x hx => h x (List.mem_cons_of_mem a hx))]

theorem existsPath_perm (T U : List Entry) (h : T.Perm U) (p : String) :
    existsPath T p = existsPath U p := by
  unfold existsPath
  by_cases hT : (T.any fun e =>
      osResolve (srcPathOf e.relOf) == osResolve p) = true
  · rw [hT]
    obtain ⟨e, he, hf⟩ := List.any_eq_true.mp hT
    exact (List.any_eq_true.mpr ⟨e, h.mem_iff.mp he, hf⟩).symm
  · have hU : ¬ (U.any fun e =>
        osResolve (srcPathOf e.relOf) == osResolve p) = true := by
      intro hc
      obtain ⟨e, he, hf⟩ := List.any_eq_true.mp hc
      exact hT (List.any_eq_true.mpr ⟨e, h.mem_iff.mpr he, hf⟩)
    rw [Bool.not_eq_true] at hT hU
    rw [hT, hU]

theorem lineUnresolved_perm (T U : List Entry) (h : T.Perm U) (p : String)
    (line : String) : lineUnresolved T p line = lineUnresolved U p line := by
  unfold lineUnresolved
  cases findDirective line.data with
  | none => rfl
  | some name =>
      show (!existsPath T (parentDir p ++ "/" ++ String.mk name)) =
        (!existsPath U (parentDir p ++ "/" ++ String.mk name))
      rw [existsPath_perm T U h]

theorem fileUnresolved_perm (T U : List Entry) (h : T.Perm U) (e : Entry) :
    fileUnresolved T e = fileUnresolved U e := by
  cases e with
  | dir rel => rfl
  | file rel c =>
      show (!isHtml rel ||
          (rustLines c).all (lineUnresolved T (srcPathOf rel))) =
        (!isHtml rel || (rustLines c).all (lineUnresolved U (srcPathOf rel)))
      rw [all_congr_mem (rustLines c) _ _
        (fun x _ => lineUnresolved_perm T U h (srcPathOf rel) x)]

theorem processLines_unresolved (tree : List Entry) (p : String) :
    ∀ (lines : List String) (i : Nat) (st : HRes),
      (∀ l ∈ lines, lineUnresolved tree p l = true) →
      ∃ ds, processLines tree p lines i st =
        .ok ⟨st.out ++ emitLines lines, st.diags ++ ds, st.procd⟩ := by
  intro lines
  induction lines with
  | nil =>
      intro i st _
      refine ⟨[], ?_⟩
      simp [processLines, emitLines, str_append_empty]
  | cons l rest ih =>
      intro i st hall
      have hl : lineUnresolved tree p l = true :=
        hall l (List.mem_cons_self l rest)
      have htail : ∀ x ∈ rest, lineUnresolved tree p x = true :=
        fun x hx => hall x (List.mem_cons_of_mem l hx)
      unfold lineUnresolved at hl
      cases hf : findDirective l.data with
      | none =>
          rw [hf] at hl
          have hstep : stepLine tree p i l st =
              .ok ⟨st.out ++ l ++ "\n", st.diags, st.procd⟩ := by
            simp [stepLine, hf]
          obtain ⟨ds, hds⟩ := ih (i + 1) ⟨st.out ++ l ++ "\n", st.diags,
            st.procd⟩ htail
          refine ⟨ds, ?_⟩
          simp only [processLines, hstep]
          rw [hds]
          simp only [emitLines]
          simp [str_append_assoc]
      | some name =>
          rw [hf] at hl
          have hex : existsPath tree
              (parentDir p ++ "/" ++ String.mk name) = false := by
            simpa using hl
          have hstep : stepLine tree p i l st =
              .ok ⟨st.out ++ l ++ "\n",
                st.diags ++ [.templateNotFound (String.mk name) p (i + 1)],
                st.procd⟩ := by
            simp [stepLine, hf, hex]
          obtain ⟨ds, hds⟩ := ih (i + 1) ⟨st.out ++ l ++ "\n",
            st.diags ++ [.templateNotFound (String.mk name) p (i + 1)],
            st.procd⟩ htail
          refine ⟨[Diag.templateNotFound (String.mk name) p (i + 1)] ++ ds,
            ?_⟩
          simp only [processLines, hstep]
          rw [hds]
          simp only [emitLines]
          simp [str_append_assoc, List.append_assoc]

theorem processHtmlFileOn_unresolved (tree : List Entry) (p c : String)
    (hall : ∀ l ∈ rustLines c, lineUnresolved tree p l = true) :
    ∃ ds, processHtmlFileOn tree p c =
      .ok ⟨emitLines (rustLines c), ds, []⟩ := by
  obtain ⟨ds, hds⟩ :=
    processLines_unresolved tree p (rustLines c) 0 ⟨"", [], []⟩ hall
  refine ⟨ds, ?_⟩
  rw [processHtmlFileOn, hds, str_empty_append]
  simp

theorem entryOut_file_unresolved (T : List Entry) (rel c : String)
    (h : fileUnresolved T (.file rel c) = true) :
    entryOut T (.file rel c) =
      some (destPathOf rel,
        if isHtml rel then emitLines (rustLines c) else c) := by
  by_cases hh : isHtml rel = true
  · have hall : ∀ l ∈ rustLines c,
        lineUnresolved T (srcPathOf rel) l = true := by
      have h2 : (!isHtml rel ||
          (rustLines c).all (lineUnresolved T (srcPathOf rel))) = true := h
      rw [hh] at h2
      simp only [Bool.not_true, Bool.false_or] at h2
      exact fun l hl => List.all_eq_true.mp h2 l hl
    obtain ⟨ds, hds⟩ := processHtmlFileOn_unresolved T (srcPathOf rel) c hall
    simp [entryOut, hh, hds]
  · simp [entryOut, hh]

theorem keys_filterMap_entryOut (T : List Entry) :
    ∀ l : List Entry, (∀ e ∈ l, fileUnresolved T e = true) →
      (l.filterMap (entryOut T)).map Prod.fst =
        (fileRels l).map destPathOf := by
  intro l
  induction l with
  | nil => intro _; rfl
  | cons e rest ih =>
      intro hun
      have htail : ∀ x ∈ rest, fileUnresolved T x = true :=
        fun x hx => hun x (List.mem_cons_of_mem e hx)
      cases e with
      | dir rel =>
          simp only [List.filterMap_cons, entryOut, fileRels]
          rw [show (rest.filterMap fun e => match e with
            | Entry.file rel _ => some rel
            | Entry.dir _ => none) = fileRels rest from rfl]
          exact ih htail
      | file rel c =>
          have hout := entryOut_file_unresolved T rel c
            (hun _ (List.mem_cons_self _ rest))
          simp only [List.filterMap_cons, hout, fileRels]
          simp only [List.map_cons]
          rw [show (rest.filterMap fun e => match e with
            | Entry.file rel _ => some rel
            | Entry.dir _ => none) = fileRels rest from rfl]
          rw [ih htail]

theorem lookupOut_perm (o1 o2 : List (String × String)) (h : o1.Perm o2)
    (hnd : (o1.map Prod.fst).Nodup) (k : String) :
    lookupOut o1 k = lookupOut o2 k := by
  induction h with
  | nil => rfl
  | cons x h ih =>
      obtain ⟨xa, xb⟩ := x
      rw [List.map_cons] at hnd
      by_cases hk : k = xa
      · subst hk
        simp [lookupOut, List.lookup]
      · have hb : (k == xa) = false := by simpa using hk
        simp only [lookupOut, List.lookup, hb]
        exact ih hnd.of_cons
  | swap x y l =>
      obtain ⟨xa, xb⟩ := x
      obtain ⟨ya, yb⟩ := y
      rw [List.map_cons, List.map_cons] at hnd
      have hyx : ya ≠ xa := by
        intro hc
        exact (List.nodup_cons.mp hnd).1 (by simp [hc])
      by_cases hky : k = ya
      · subst hky
        have hbx : (k == xa) = false := by
          simp only [beq_eq_false_iff_ne, ne_eq]
          intro hc
          exact hyx hc
        simp [lookupOut, List.lookup, hbx]
      · have hby : (k == ya) = false := by simpa using hky
        by_cases hkx : k = xa
        · subst hkx
          simp [lookupOut, List.lookup, hby]
        · have hbx : (k == xa) = false := by simpa using hkx
          simp [lookupOut, List.lookup, hbx, hby]
  | trans h1 h2 ih1 ih2 =>
      rw [ih1 hnd]
      refine ih2 ?_
      have hperm := h1.map Prod.fst
      exact (List.Perm.nodup_iff hperm).mp hnd

theorem processEntries_noResolve (env : FsEnv) (T : List Entry)
    (henv : envNoFail env) :
    ∀ (l : List Entry) (s : GState),
      (∀ e ∈ l, fileUnresolved T e = true) →
      (procCompsOf l).Nodup →
      (∀ x ∈ procCompsOf l, x ∉ s.processed) →
      ∃ ds, processEntries env T l s =
        .ok ⟨s.output ++ l.filterMap (entryOut T), s.errors ++ ds,
          s.processed ++ procCompsOf l⟩ := by
  intro l
  induction l with
  | nil =>
      intro s _ _ _
      refine ⟨[], ?_⟩
      simp [processEntries, procCompsOf]
  | cons e rest ih =>
      intro s hun hnd hfresh
      have htail : ∀ x ∈ rest, fileUnresolved T x = true :=
        fun x hx => hun x (List.mem_cons_of_mem e hx)
      cases e with
      | dir rel =>
          have hm : env.mkdirFails rel = false := (henv rel).1
          have hstep : stepEntry env T (.dir rel) s = .ok s := by
            simp [stepEntry, hm]
          have hpc : procCompsOf (Entry.dir rel :: rest) =
              procCompsOf rest := by
            simp [procCompsOf]
          rw [hpc] at hnd hfresh
          obtain ⟨ds, hds⟩ := ih s htail hnd hfresh
          refine ⟨ds, ?_⟩
          simp only [processEntries, hstep]
          rw [hds, hpc]
          simp [List.filterMap_cons, entryOut]
      | file rel c =>
          have hcomps0 : procCompsOf (Entry.file rel c :: rest) =
              rustComponents (srcPathOf rel) :: procCompsOf rest := by
            simp [procCompsOf]
          have hmem : rustComponents (srcPathOf rel) ∉ s.processed := by
            apply hfresh
            rw [hcomps0]
            exact List.mem_cons_self _ _
          have hout := entryOut_file_unresolved T rel c
            (hun _ (List.mem_cons_self _ _))
          rw [hcomps0] at hnd hfresh
          have hndt : (procCompsOf rest).Nodup := hnd.of_cons
          have hhead : rustComponents (srcPathOf rel) ∉ procCompsOf rest :=
            (List.nodup_cons.mp hnd).1
          have hfr : ∀ x ∈ procCompsOf rest,
              x ∉ s.processed ++ [rustComponents (srcPathOf rel)] := by
            intro x hx
            simp only [List.mem_append, List.mem_singleton]
            rintro (hxs | hxe)
            · exact hfresh x (List.mem_cons_of_mem _ hx) hxs
            · exact hhead (hxe ▸ hx)
          by_cases hh : isHtml rel = true
          · have hfl : env.htmlFails rel = false := (henv rel).2.2
            have hall : ∀ ln ∈ rustLines c,
                lineUnresolved T (srcPathOf rel) ln = true := by
              have h2 : (!isHtml rel ||
                  (rustLines c).all (lineUnresolved T (srcPathOf rel))) =
                  true := hun _ (List.mem_cons_self _ _)
              rw [hh] at h2
              simp only [Bool.not_true, Bool.false_or] at h2
              exact fun ln hl => List.all_eq_true.mp h2 ln hl
            obtain ⟨ds0, hds0⟩ :=
              processHtmlFileOn_unresolved T (srcPathOf rel) c hall
            have hstep : stepEntry env T (.file rel c) s =
                .ok ⟨s.output ++
                    [(destPathOf rel, emitLines (rustLines c))],
                  s.errors ++ ds0,
                  s.processed ++ [rustComponents (srcPathOf rel)]⟩ := by
              simp [stepEntry, hmem, hh, hfl, hds0]
            obtain ⟨ds, hds⟩ := ih
              ⟨s.output ++ [(destPathOf rel, emitLines (rustLines c))],
                s.errors ++ ds0,
                s.processed ++ [rustComponents (srcPathOf rel)]⟩
              htail hndt hfr
            refine ⟨ds0 ++ ds, ?_⟩
            simp only [processEntries, hstep]
            rw [hds]
            have hofile : entryOut T (Entry.file rel c) =
                some (destPathOf rel, emitLines (rustLines c)) := by
              rw [hout, if_pos hh]
            simp [List.filterMap_cons, hofile, hcomps0, List.append_assoc]
          · have hfl : env.copyFails rel = false := (henv rel).2.1
            have hstep : stepEntry env T (.file rel c) s =
                .ok ⟨s.output ++ [(destPathOf rel, c)], s.errors,
                  s.processed ++ [rustComponents (srcPathOf rel)]⟩ := by
              simp [stepEntry, hmem, hh, hfl]
            obtain ⟨ds, hds⟩ := ih
              ⟨s.output ++ [(destPathOf rel, c)], s.errors,
                s.processed ++ [rustComponents (srcPathOf rel)]⟩
              htail hndt hfr
            refine ⟨ds, ?_⟩
            simp only [processEntries, hstep]
            rw [hds]
            have hofile : entryOut T (Entry.file rel c) =
                some (destPathOf rel, c) := by
              rw [hout, if_neg hh]
            simp [List.filterMap_cons, hofile, hcomps0, List.append_assoc]

/-- C9 counterexample: the two-file specification example under the two
sibling enumeration orders (a permutation of the same source tree)
yields different output trees: with the referencing file first the
fragment is excluded, with the fragment first an independent
generated/b.html entry exists, so output content does depend on
enumeration order. -/
theorem order_dependent_output_cex :
    runLookup envOk
        [.file "a.html" "<!-- template: b.html -->\n",
         .file "b.html" "<p>hi</p>"] "./generated/b.html" = none ∧
      runLookup envOk
        [.file "b.html" "<p>hi</p>",
         .file "a.html" "<!-- template: b.html -->\n"]
        "./generated/b.html" = some "<p>hi</p>\n" := by
  constructor
  · rfl
  · rfl

/-- C9 (amended): when no directive in the source tree resolves to an
existing entry (no fragment is consumed), the generated output tree is
the same finite map under every permutation of the enumeration order
(all entry paths distinct, no file-system failures); when a referenced
fragment exists, its independent emission depends on the enumeration
order, as the counterexample shows, so full order-independence fails
only through fragment consumption. -/
theorem order_independent_no_resolution (env : FsEnv) (T U : List Entry)
    (henv : envNoFail env) (hperm : T.Perm U) (hnr : noResolve T = true)
    (hnd : (procCompsOf T).Nodup) (hrels : (fileRels T).Nodup)
    (s1 s2 : GState) (h1 : generateSite env T = .ok s1)
    (h2 : generateSite env U = .ok s2) (k : String) :
    lookupOut s1.output k = lookupOut s2.output k := by
  have hunT : ∀ e ∈ T, fileUnresolved T e = true :=
    fun e he => List.all_eq_true.mp hnr e he
  have hunU : ∀ e ∈ U, fileUnresolved U e = true := by
    intro e he
    rw [← fileUnresolved_perm T U hperm e]
    exact hunT e (hperm.mem_iff.mpr he)
  have hndU : (procCompsOf U).Nodup := by
    have hp : (procCompsOf T).Perm (procCompsOf U) := hperm.filterMap _
    exact (List.Perm.nodup_iff hp).mp hnd
  obtain ⟨ds1, hds1⟩ := processEntries_noResolve env T henv T initState
    hunT hnd (by intro x hx; simp [initState])
  obtain ⟨ds2, hds2⟩ := processEntries_noResolve env U henv U initState
    hunU hndU (by intro x hx; simp [initState])
  rw [generateSite, hds1] at h1
  rw [generateSite, hds2] at h2
  have hs1 : s1.output = T.filterMap (entryOut T) := by
    have he := Except.ok.inj h1
    rw [← he]
    simp [initState]
  have hs2 : s2.output = U.filterMap (entryOut U) := by
    have he := Except.ok.inj h2
    rw [← he]
    simp [initState]
  have hcong : U.filterMap (entryOut U) = U.filterMap (entryOut T) := by
    apply filterMap_congr_mem
    intro e he
    cases e with
    | dir rel => rfl
    | file rel c =>
        rw [entryOut_file_unresolved U rel c (hunU _ he),
          entryOut_file_unresolved T rel c
            (by rw [fileUnresolved_perm T U hperm]; exact hunU _ he)]
  have hpermOut :
      (T.filterMap (entryOut T)).Perm (U.filterMap (entryOut T)) :=
    hperm.filterMap _
  have hkeys : ((T.filterMap (entryOut T)).map Prod.fst).Nodup := by
    rw [keys_filterMap_entryOut T T hunT]
    exact hrels.map (fun a b hab => destPathOf_inj hab)
  rw [hs1, hs2, hcong]
  exact lookupOut_perm _ _ hpermOut hkeys k

/-- C9 witness: the amended order-independence applied to a concrete
directive-free two-file tree and its swapped enumeration order. -/
theorem order_independent_no_resolution_witness :
    lookupOut
        (GState.mk [("./generated/a.html", "x\n"), ("./generated/b.txt", "y")]
          [] [[".", "src", "a.html"], [".", "src", "b.txt"]]).output
        "./generated/a.html" =
      lookupOut
        (GState.mk [("./generated/b.txt", "y"), ("./generated/a.html", "x\n")]
          [] [[".", "src", "b.txt"], [".", "src", "a.html"]]).output
        "./generated/a.html" :=
  order_independent_no_resolution envOk
    [.file "a.html" "x\n", .file "b.txt" "y"]
    [.file "b.txt" "y", .file "a.html" "x\n"]
    (fun _ => ⟨rfl, rfl, rfl⟩)
    (List.Perm.swap (Entry.file "b.txt" "y") (Entry.file "a.html" "x\n") [])
    (by decide) (by decide) (by decide)
    (GState.mk [("./generated/a.html", "x\n"), ("./generated/b.txt", "y")]
      [] [[".", "src", "a.html"], [".", "src", "b.txt"]])
    (GState.mk [("./generated/b.txt", "y"), ("./generated/a.html", "x\n")]
      [] [[".", "src", "b.txt"], [".", "src", "a.html"]])
    rfl rfl "./generated/a.html"

/-- C10 (amended): fragment exclusion is keyed on Rust PathBuf
component equality of the joined candidate path, which normalizes away
non-leading "." segments and repeated separators but not ".."
segments: a "./NAME" spelling is normalized and the fragment is
excluded, while a "sub/../NAME" spelling evades the processed-set
comparison, so that fragment is inlined and nevertheless independently
emitted. -/
theorem exclusion_component_equality :
    rustComponents "./src/./b.html" = rustComponents "./src/b.html" ∧
    rustComponents "./src/sub/../b.html" ≠ rustComponents "./src/b.html" ∧
    runLookup envOk
        [.file "a.html" "<!-- template: sub/../b.html -->\n", .dir "sub",
         .file "b.html" "<p>hi</p>"]
        "./generated/b.html" = some "<p>hi</p>\n" ∧
    runLookup envOk
        [.file "a.html" "<!-- template: sub/../b.html -->\n", .dir "sub",
         .file "b.html" "<p>hi</p>"]
        "./generated/a.html" = some "<p>hi</p>\n" := by
  refine ⟨by decide, by decide, rfl, rfl⟩

end Ssg
